import Mathlib

/-!
Verification development for the hornsharkHMM native core.

The repository ships only the foreign-function binding glue
(src/RcppExports.cpp), which fixes the signatures of the two exported
routines:

* `dmvnrm_arma_mc (x : matrix) (mean : row vector) (sigma : matrix)
    (logd : bool) (cores : int) : vector` — multivariate normal density
  evaluator, and
* `foralg (n N : int) (foo gamma allprobs : matrix) : double` — scaled
  forward-algorithm log-likelihood for a hidden Markov model.

The bodies of both routines are not part of the visible source, so they
are modelled here from the specification (spec.md sections 4.1, 4.2 and 7):
vectors and matrices are lists of real numbers, fallible computation is
an `Except` value, dimension mismatches give `Err.ShapeError`, a
non-positive-definite covariance or a zero probability mass gives
`Err.NumericalError`, and the total embedding reports an unreachable
index through `Err.OutOfBounds`.
-/

/-- Error outcomes of the modelled core: shape validation failure,
numerical failure (zero mass or invalid covariance), and the
out-of-bounds branch of the total embedding. -/
inductive Err where
  | ShapeError
  | NumericalError
  | OutOfBounds
deriving DecidableEq

/-- Sum of the entries of a vector. -/
def sumv (v : List ℝ) : ℝ := v.foldr (fun a b => a + b) 0

/-- Scalar multiple of a vector. -/
def smulv (c : ℝ) (v : List ℝ) : List ℝ := v.map (fun a => c * a)

/-- Elementwise sum of two vectors. -/
def addv (v w : List ℝ) : List ℝ := List.zipWith (fun a b => a + b) v w

/-- Elementwise (Hadamard) product of two vectors. -/
def hadamard (v w : List ℝ) : List ℝ := List.zipWith (fun a b => a * b) v w

/-- Column count of a matrix stored as a list of rows (width of the
first row; matrices arriving from the host are rectangular). -/
def matCols (m : List (List ℝ)) : ℕ := (m.headD []).length

/-- Row `i` of a matrix, with the empty row as default. -/
def rowD (m : List (List ℝ)) (i : ℕ) : List ℝ := m.getD i []

/-- Row-vector times matrix, as the linear combination of the rows of
`m` with the entries of `v` as coefficients; `w` is the column count. -/
def vecMatW (w : ℕ) : List ℝ → List (List ℝ) → List ℝ
  | a :: v, r :: m => addv (smulv a r) (vecMatW w v m)
  | _, _ => List.replicate w 0

/-- Row-vector times matrix. -/
def vecMatP (v : List ℝ) (m : List (List ℝ)) : List ℝ :=
  vecMatW (matCols m) v m

/-- Total list indexing: out-of-range access reports the out-of-bounds
branch of the embedding. -/
def nthE {α : Type} (xs : List α) (i : ℕ) : Except Err α :=
  match xs.get? i with
  | some a => .ok a
  | none => .error .OutOfBounds

/-- Checked elementwise product: the host numerical library rejects
non-conforming operand sizes. -/
def hadE (v w : List ℝ) : Except Err (List ℝ) :=
  if v.length = w.length then .ok (hadamard v w) else .error .OutOfBounds

/-- Conformance check for row-vector times matrix: the vector length
must equal the row count and the matrix must be rectangular. -/
def conformVM (v : List ℝ) (m : List (List ℝ)) : Bool :=
  v.length == m.length && m.all (fun r => r.length == matCols m)

/-- Checked row-vector times matrix. -/
def vecMatE (v : List ℝ) (m : List (List ℝ)) : Except Err (List ℝ) :=
  if conformVM v m then .ok (vecMatP v m) else .error .OutOfBounds

/-- Modelled from the spec: shape validation of `foralg` (missing from
the visible source; spec sections 4.2 and 7): `foo` has length `N`,
`gamma` is `N` by `N`, and `allprobs` is `n` by `N`. -/
def shapeOkF (n N : ℕ) (foo : List ℝ) (gamma allprobs : List (List ℝ)) : Bool :=
  foo.length == N && gamma.length == N && gamma.all (fun r => r.length == N) &&
    allprobs.length == n && allprobs.all (fun r => r.length == N)

/-- Modelled from the spec: the loop of the scaled forward recursion of
`foralg` (body missing from the visible source; spec section 4.2).
At each remaining step the state vector is multiplied by the transition
matrix and elementwise by the emission row `t`, the sum `s` of the
result is checked against zero, `ln s` is accumulated and the vector is
rescaled by `1/s`. -/
noncomputable def foralgGo (gamma allprobs : List (List ℝ)) :
    ℕ → ℕ → List ℝ → ℝ → Except Err ℝ
  | 0, _, _, acc => .ok acc
  | steps + 1, t, v, acc =>
    (vecMatE v gamma).bind fun u =>
      (nthE allprobs t).bind fun row =>
        (hadE u row).bind fun w =>
          if sumv w = 0 then .error .NumericalError
          else foralgGo gamma allprobs steps (t + 1)
            (smulv (sumv w)⁻¹ w) (acc + Real.log (sumv w))

/-- Modelled from the spec: the recursion of `foralg` without the entry
shape validation (body missing from the visible source; spec section
4.2).  For `n = 0` the result is `0`; otherwise the state vector starts
as the elementwise product of `foo` with the first emission row, the
first scale `s` is checked against zero and accumulated, and the loop
runs over the remaining `n - 1` steps. -/
noncomputable def foralgCore (n N : ℕ) (foo : List ℝ)
    (gamma allprobs : List (List ℝ)) : Except Err ℝ :=
  if n = 0 then .ok 0 else
    (nthE allprobs 0).bind fun row =>
      (hadE foo row).bind fun v =>
        if sumv v = 0 then .error .NumericalError
        else foralgGo gamma allprobs (n - 1) 1
          (smulv (sumv v)⁻¹ v) (Real.log (sumv v))

/-- Modelled from the spec: `foralg` (body missing from the visible
source; spec sections 4.2 and 7): shapes are validated eagerly at entry
and any mismatch fails with `ShapeError` before the recursion runs. -/
noncomputable def foralg (n N : ℕ) (foo : List ℝ)
    (gamma allprobs : List (List ℝ)) : Except Err ℝ :=
  if shapeOkF n N foo gamma allprobs then foralgCore n N foo gamma allprobs
  else .error .ShapeError

/-- Spec-side definition for the refinement claim: the naive unscaled
forward vector.  `naiveAlpha foo gamma allprobs t` is the forward
vector after `t` observations (1-based): the elementwise product of the
initial distribution with the first emission row at `t = 1`, and at
each later step the previous vector times the transition matrix,
elementwise times the emission row of that step, with no rescaling. -/
def naiveAlpha (foo : List ℝ) (gamma allprobs : List (List ℝ)) : ℕ → List ℝ
  | 0 => foo
  | 1 => hadamard foo (rowD allprobs 0)
  | t + 2 =>
    hadamard (vecMatP (naiveAlpha foo gamma allprobs (t + 1)) gamma)
      (rowD allprobs (t + 1))

/-- Spec-side definition for the refinement claim: the naive unscaled
forward likelihood of the full sequence of `n` observations. -/
def naiveLik (foo : List ℝ) (gamma allprobs : List (List ℝ)) (n : ℕ) : ℝ :=
  sumv (naiveAlpha foo gamma allprobs n)

lemma sumv_nil : sumv [] = 0 := rfl

lemma sumv_cons (a : ℝ) (v : List ℝ) : sumv (a :: v) = a + sumv v := rfl

lemma length_smulv (c : ℝ) (v : List ℝ) : (smulv c v).length = v.length :=
  List.length_map _ _

lemma length_addv (v w : List ℝ) :
    (addv v w).length = min v.length w.length :=
  List.length_zipWith _ _ _

lemma length_hadamard (v w : List ℝ) :
    (hadamard v w).length = min v.length w.length :=
  List.length_zipWith _ _ _

lemma sumv_smulv (c : ℝ) (v : List ℝ) : sumv (smulv c v) = c * sumv v := by
  induction v with
  | nil => simp [smulv, sumv_nil]
  | cons a v ih =>
    show c * a + sumv (smulv c v) = c * (a + sumv v)
    rw [ih]; ring

lemma smulv_smulv (c d : ℝ) (v : List ℝ) :
    smulv c (smulv d v) = smulv (c * d) v := by
  simp [smulv, List.map_map, Function.comp, mul_assoc]

lemma smulv_addv (c : ℝ) (v w : List ℝ) :
    smulv c (addv v w) = addv (smulv c v) (smulv c w) := by
  induction v generalizing w with
  | nil => simp [smulv, addv]
  | cons a v ih =>
    cases w with
    | nil => simp [smulv, addv]
    | cons b w =>
      show (c * (a + b)) :: smulv c (addv v w)
          = (c * a + c * b) :: addv (smulv c v) (smulv c w)
      rw [ih, mul_add]

lemma smulv_hadamard (c : ℝ) (v w : List ℝ) :
    smulv c (hadamard v w) = hadamard (smulv c v) w := by
  induction v generalizing w with
  | nil => simp [smulv, hadamard]
  | cons a v ih =>
    cases w with
    | nil => simp [smulv, hadamard]
    | cons b w =>
      show (c * (a * b)) :: smulv c (hadamard v w)
          = ((c * a) * b) :: hadamard (smulv c v) w
      rw [ih, mul_assoc]

lemma smulv_replicate (c : ℝ) (k : ℕ) :
    smulv c (List.replicate k 0) = List.replicate k 0 := by
  simp [smulv]

lemma vecMatW_nil_left (k : ℕ) (m : List (List ℝ)) :
    vecMatW k [] m = List.replicate k 0 := by
  cases m <;> rfl

lemma vecMatW_nil_right (k : ℕ) (a : ℝ) (v : List ℝ) :
    vecMatW k (a :: v) [] = List.replicate k 0 := rfl

lemma vecMatW_cons (k : ℕ) (a : ℝ) (v : List ℝ) (r : List ℝ)
    (m : List (List ℝ)) :
    vecMatW k (a :: v) (r :: m) = addv (smulv a r) (vecMatW k v m) := rfl

lemma vecMatW_smulv (k : ℕ) (c : ℝ) (v : List ℝ) (m : List (List ℝ)) :
    vecMatW k (smulv c v) m = smulv c (vecMatW k v m) := by
  induction v generalizing m with
  | nil =>
    have h0 : smulv c ([] : List ℝ) = [] := rfl
    rw [h0, vecMatW_nil_left, smulv_replicate]
  | cons a v ih =>
    have h1 : smulv c (a :: v) = (c * a) :: smulv c v := rfl
    cases m with
    | nil => rw [h1, vecMatW_nil_right, vecMatW_nil_right, smulv_replicate]
    | cons r m =>
      rw [h1, vecMatW_cons, vecMatW_cons, ih, smulv_addv, smulv_smulv]

lemma length_vecMatW (k : ℕ) (v : List ℝ) (m : List (List ℝ))
    (h : ∀ r ∈ m, r.length = k) : (vecMatW k v m).length = k := by
  induction v generalizing m with
  | nil => rw [vecMatW_nil_left]; simp
  | cons a v ih =>
    cases m with
    | nil => rw [vecMatW_nil_right]; simp
    | cons r m =>
      have hr : r.length = k := h r (by simp)
      have hm : ∀ x ∈ m, x.length = k := fun x hx => h x (by simp [hx])
      rw [vecMatW_cons, length_addv, length_smulv, hr, ih m hm]
      simp

lemma matCols_eq (N : ℕ) (gamma : List (List ℝ)) (h1 : gamma.length = N)
    (h2 : ∀ r ∈ gamma, r.length = N) : matCols gamma = N := by
  cases gamma with
  | nil => exact h1
  | cons r g =>
    have : r.length = N := h2 r (by simp)
    simpa [matCols] using this

lemma shapeOkF_iff (n N : ℕ) (foo : List ℝ) (gamma allprobs : List (List ℝ)) :
    shapeOkF n N foo gamma allprobs = true ↔
      (foo.length = N ∧ gamma.length = N ∧ (∀ r ∈ gamma, r.length = N) ∧
        allprobs.length = n ∧ (∀ r ∈ allprobs, r.length = N)) := by
  simp [shapeOkF, List.all_eq_true, and_assoc]

lemma nthE_eq_rowD : ∀ (m : List (List ℝ)) (i : ℕ), i < m.length →
    nthE m i = .ok (rowD m i)
  | [], _, h => by simp at h
  | r :: m, 0, _ => rfl
  | r :: m, i + 1, h => nthE_eq_rowD m i (by simpa using h)

lemma rowD_mem : ∀ (m : List (List ℝ)) (i : ℕ), i < m.length → rowD m i ∈ m
  | [], _, h => by simp at h
  | r :: m, 0, _ => by simp [rowD]
  | r :: m, i + 1, h =>
    List.mem_cons_of_mem r (rowD_mem m i (by simpa using h))

lemma hadE_ok (v w : List ℝ) (h : v.length = w.length) :
    hadE v w = .ok (hadamard v w) := if_pos h

lemma vecMatE_ok (v : List ℝ) (m : List (List ℝ)) (N : ℕ)
    (hv : v.length = N) (hm : m.length = N) (hr : ∀ r ∈ m, r.length = N) :
    vecMatE v m = .ok (vecMatP v m) := by
  have hc : conformVM v m = true := by
    simp only [conformVM, Bool.and_eq_true, beq_iff_eq, List.all_eq_true]
    refine ⟨by rw [hv, hm], ?_⟩
    intro r hrm
    rw [hr r hrm, matCols_eq N m hm hr]
  simp [vecMatE, hc]

lemma naiveAlpha_one (foo : List ℝ) (gamma allprobs : List (List ℝ)) :
    naiveAlpha foo gamma allprobs 1 = hadamard foo (rowD allprobs 0) := rfl

lemma naiveAlpha_succ (foo : List ℝ) (gamma allprobs : List (List ℝ))
    (t : ℕ) (h : 1 ≤ t) :
    naiveAlpha foo gamma allprobs (t + 1)
      = hadamard (vecMatP (naiveAlpha foo gamma allprobs t) gamma)
          (rowD allprobs t) := by
  obtain ⟨s, rfl⟩ : ∃ s, t = s + 1 := ⟨t - 1, by omega⟩
  rfl

lemma length_naiveAlpha (n N : ℕ) (foo : List ℝ)
    (gamma allprobs : List (List ℝ))
    (hfoo : foo.length = N) (hg : gamma.length = N)
    (hgr : ∀ r ∈ gamma, r.length = N)
    (hp : allprobs.length = n) (hpr : ∀ r ∈ allprobs, r.length = N) :
    ∀ t, 1 ≤ t → t ≤ n → (naiveAlpha foo gamma allprobs t).length = N := by
  intro t h1 h2
  cases t with
  | zero => omega
  | succ s =>
    cases s with
    | zero =>
      rw [naiveAlpha_one]
      have hrow : (rowD allprobs 0).length = N :=
        hpr _ (rowD_mem _ 0 (by omega))
      rw [length_hadamard, hfoo, hrow]; simp
    | succ s2 =>
      rw [naiveAlpha_succ _ _ _ (s2 + 1) (by omega)]
      have hrow : (rowD allprobs (s2 + 1)).length = N :=
        hpr _ (rowD_mem _ (s2 + 1) (by omega))
      have hvm : (vecMatP (naiveAlpha foo gamma allprobs (s2 + 1)) gamma).length = N := by
        rw [vecMatP, matCols_eq N gamma hg hgr]
        exact length_vecMatW N _ gamma hgr
      rw [length_hadamard, hvm, hrow]; simp

lemma vecMatP_def (v : List ℝ) (m : List (List ℝ)) :
    vecMatP v m = vecMatW (matCols m) v m := rfl

lemma exbind_ok {α β : Type} (a : α) (f : α → Except Err β) :
    (Except.ok a : Except Err α).bind f = f a := rfl

lemma exbind_error {α β : Type} (e : Err) (f : α → Except Err β) :
    (Except.error e : Except Err α).bind f = .error e := rfl

open Classical in
lemma foralgGo_main (n N : ℕ) (foo : List ℝ) (gamma allprobs : List (List ℝ))
    (hfoo : foo.length = N) (hg : gamma.length = N)
    (hgr : ∀ r ∈ gamma, r.length = N)
    (hp : allprobs.length = n) (hpr : ∀ r ∈ allprobs, r.length = N) :
    ∀ (steps t : ℕ) (acc : ℝ), 1 ≤ t → t + steps ≤ n →
      sumv (naiveAlpha foo gamma allprobs t) ≠ 0 →
      foralgGo gamma allprobs steps t
          (smulv (sumv (naiveAlpha foo gamma allprobs t))⁻¹
            (naiveAlpha foo gamma allprobs t)) acc
        = if ∀ u, t < u → u ≤ t + steps →
              sumv (naiveAlpha foo gamma allprobs u) ≠ 0
          then .ok (acc
              + Real.log (sumv (naiveAlpha foo gamma allprobs (t + steps)))
              - Real.log (sumv (naiveAlpha foo gamma allprobs t)))
          else .error .NumericalError := by
  intro steps
  induction steps with
  | zero =>
    intro t acc ht1 ht2 hS
    have hcond : ∀ u, t < u → u ≤ t + 0 →
        sumv (naiveAlpha foo gamma allprobs u) ≠ 0 := by
      intro u h1 h2; omega
    rw [if_pos hcond]
    simp only [foralgGo, Nat.add_zero]
    congr 1
    ring
  | succ steps ih =>
    intro t acc ht1 ht2 hS
    have hlen : (naiveAlpha foo gamma allprobs t).length = N :=
      length_naiveAlpha n N foo gamma allprobs hfoo hg hgr hp hpr t ht1
        (by omega)
    have htn : t < allprobs.length := by rw [hp]; omega
    have e1 : vecMatE (smulv (sumv (naiveAlpha foo gamma allprobs t))⁻¹
          (naiveAlpha foo gamma allprobs t)) gamma
        = .ok (vecMatP (smulv (sumv (naiveAlpha foo gamma allprobs t))⁻¹
          (naiveAlpha foo gamma allprobs t)) gamma) :=
      vecMatE_ok _ gamma N (by rw [length_smulv, hlen]) hg hgr
    have e2 : nthE allprobs t = .ok (rowD allprobs t) :=
      nthE_eq_rowD allprobs t htn
    have hlvm : (vecMatP (smulv (sumv (naiveAlpha foo gamma allprobs t))⁻¹
        (naiveAlpha foo gamma allprobs t)) gamma).length = N := by
      rw [vecMatP_def, matCols_eq N gamma hg hgr]
      exact length_vecMatW N _ gamma hgr
    have hlrow : (rowD allprobs t).length = N := hpr _ (rowD_mem _ t htn)
    have e3 : hadE (vecMatP (smulv (sumv (naiveAlpha foo gamma allprobs t))⁻¹
          (naiveAlpha foo gamma allprobs t)) gamma) (rowD allprobs t)
        = .ok (hadamard (vecMatP (smulv (sumv (naiveAlpha foo gamma allprobs t))⁻¹
          (naiveAlpha foo gamma allprobs t)) gamma) (rowD allprobs t)) :=
      hadE_ok _ _ (by rw [hlvm, hlrow])
    have hw : hadamard (vecMatP (smulv (sumv (naiveAlpha foo gamma allprobs t))⁻¹
          (naiveAlpha foo gamma allprobs t)) gamma) (rowD allprobs t)
        = smulv (sumv (naiveAlpha foo gamma allprobs t))⁻¹
            (naiveAlpha foo gamma allprobs (t + 1)) := by
      rw [vecMatP_def, vecMatW_smulv, ← vecMatP_def, ← smulv_hadamard,
        ← naiveAlpha_succ foo gamma allprobs t ht1]
    simp only [foralgGo]
    rw [e1, exbind_ok, e2, exbind_ok, e3, exbind_ok, hw, sumv_smulv]
    by_cases hS2 : sumv (naiveAlpha foo gamma allprobs (t + 1)) = 0
    · have houter : ¬ (∀ u, t < u → u ≤ t + (steps + 1) →
          sumv (naiveAlpha foo gamma allprobs u) ≠ 0) := by
        intro hall
        exact hall (t + 1) (by omega) (by omega) hS2
      rw [hS2, mul_zero, if_pos rfl, if_neg houter]
    · have hprod : (sumv (naiveAlpha foo gamma allprobs t))⁻¹
          * sumv (naiveAlpha foo gamma allprobs (t + 1)) ≠ 0 :=
        mul_ne_zero (inv_ne_zero hS) hS2
      rw [if_neg hprod, smulv_smulv]
      have harg : ((sumv (naiveAlpha foo gamma allprobs t))⁻¹
            * sumv (naiveAlpha foo gamma allprobs (t + 1)))⁻¹
            * (sumv (naiveAlpha foo gamma allprobs t))⁻¹
          = (sumv (naiveAlpha foo gamma allprobs (t + 1)))⁻¹ := by
        field_simp
        ring
      rw [harg, ih (t + 1) (acc + Real.log ((sumv (naiveAlpha foo gamma allprobs t))⁻¹
        * sumv (naiveAlpha foo gamma allprobs (t + 1)))) (by omega) (by omega) hS2]
      by_cases hC : ∀ u, t < u → u ≤ t + (steps + 1) →
          sumv (naiveAlpha foo gamma allprobs u) ≠ 0
      · have hC2 : ∀ u, t + 1 < u → u ≤ t + 1 + steps →
            sumv (naiveAlpha foo gamma allprobs u) ≠ 0 := by
          intro u h1 h2; exact hC u (by omega) (by omega)
        rw [if_pos hC, if_pos hC2,
          Real.log_mul (inv_ne_zero hS) hS2, Real.log_inv]
        have hidx : t + 1 + steps = t + (steps + 1) := by omega
        rw [hidx]
        congr 1
        ring
      · have hC2 : ¬ (∀ u, t + 1 < u → u ≤ t + 1 + steps →
            sumv (naiveAlpha foo gamma allprobs u) ≠ 0) := by
          intro hC2
          apply hC
          intro u h1 h2
          by_cases hu : u = t + 1
          · rw [hu]; exact hS2
          · exact hC2 u (by omega) (by omega)
        rw [if_neg hC, if_neg hC2]

open Classical in
lemma foralgCore_spec (n N : ℕ) (foo : List ℝ) (gamma allprobs : List (List ℝ))
    (hfoo : foo.length = N) (hg : gamma.length = N)
    (hgr : ∀ r ∈ gamma, r.length = N)
    (hp : allprobs.length = n) (hpr : ∀ r ∈ allprobs, r.length = N)
    (hn : 1 ≤ n) :
    foralgCore n N foo gamma allprobs
      = if ∀ u, 1 ≤ u → u ≤ n → sumv (naiveAlpha foo gamma allprobs u) ≠ 0
        then .ok (Real.log (sumv (naiveAlpha foo gamma allprobs n)))
        else .error .NumericalError := by
  have h0n : 0 < allprobs.length := by rw [hp]; omega
  have hlr : foo.length = (rowD allprobs 0).length := by
    rw [hfoo]; exact (hpr _ (rowD_mem _ 0 h0n)).symm
  simp only [foralgCore]
  rw [if_neg (by omega : ¬ n = 0), nthE_eq_rowD allprobs 0 h0n, exbind_ok,
    hadE_ok foo _ hlr, exbind_ok, ← naiveAlpha_one foo gamma allprobs]
  by_cases h1 : sumv (naiveAlpha foo gamma allprobs 1) = 0
  · have houter : ¬ (∀ u, 1 ≤ u → u ≤ n →
        sumv (naiveAlpha foo gamma allprobs u) ≠ 0) := by
      intro hall; exact hall 1 (by omega) (by omega) h1
    rw [if_pos h1, if_neg houter]
  · rw [if_neg h1,
      foralgGo_main n N foo gamma allprobs hfoo hg hgr hp hpr (n - 1) 1
        (Real.log (sumv (naiveAlpha foo gamma allprobs 1))) (by omega)
        (by omega) h1]
    by_cases hC : ∀ u, 1 ≤ u → u ≤ n → sumv (naiveAlpha foo gamma allprobs u) ≠ 0
    · have hC2 : ∀ u, 1 < u → u ≤ 1 + (n - 1) →
          sumv (naiveAlpha foo gamma allprobs u) ≠ 0 := by
        intro u hu1 hu2; exact hC u (by omega) (by omega)
      rw [if_pos hC2, if_pos hC]
      have hidx : 1 + (n - 1) = n := by omega
      rw [hidx]
      congr 1
      ring
    · have hC2 : ¬ (∀ u, 1 < u → u ≤ 1 + (n - 1) →
          sumv (naiveAlpha foo gamma allprobs u) ≠ 0) := by
        intro hC2
        apply hC
        intro u hu1 hu2
        by_cases hu : u = 1
        · rw [hu]; exact h1
        · exact hC2 u (by omega) (by omega)
      rw [if_neg hC2, if_neg hC]

/-- Claim C1: for a shape-consistent model with `n ≥ 1` time steps whose
step sums are all nonzero, the scaled forward recursion of `foralg`
(accumulating `ln s` and rescaling at every step) returns exactly the
logarithm of the naive unscaled forward likelihood of the full sequence.
The nonzero-step-sum hypothesis is phrased through the naive forward
sums, which are nonzero at every step exactly when the scale factors `s`
of the recursion are. -/
theorem foralg_eq_log_naiveLik (n N : ℕ) (foo : List ℝ)
    (gamma allprobs : List (List ℝ)) (hn : 1 ≤ n)
    (hsh : shapeOkF n N foo gamma allprobs = true)
    (hnz : ∀ t, 1 ≤ t → t ≤ n → sumv (naiveAlpha foo gamma allprobs t) ≠ 0) :
    foralg n N foo gamma allprobs
      = .ok (Real.log (naiveLik foo gamma allprobs n)) := by
  obtain ⟨hfoo, hg, hgr, hp, hpr⟩ := (shapeOkF_iff n N foo gamma allprobs).mp hsh
  simp only [foralg]
  rw [if_pos hsh,
    foralgCore_spec n N foo gamma allprobs hfoo hg hgr hp hpr hn, if_pos hnz]
  rfl

/-- Witness for C1: a two-state, two-step model with a certain initial
state and identity transitions. -/
theorem foralg_eq_log_naiveLik_witness :
    foralg 2 2 [(1:ℝ), 0] [[1, 0], [0, 1]] [[3/10, 7/10], [4/10, 6/10]]
      = .ok (Real.log
          (naiveLik [(1:ℝ), 0] [[1, 0], [0, 1]] [[3/10, 7/10], [4/10, 6/10]] 2)) := by
  apply foralg_eq_log_naiveLik 2 2 [(1:ℝ), 0] [[1, 0], [0, 1]]
    [[3/10, 7/10], [4/10, 6/10]] (by norm_num) rfl
  intro t h1 h2
  interval_cases t
  · rw [naiveAlpha_one]
    norm_num [hadamard, rowD, sumv]
  · show sumv (naiveAlpha [(1:ℝ), 0] [[1, 0], [0, 1]]
        [[3/10, 7/10], [4/10, 6/10]] (1 + 1)) ≠ 0
    rw [naiveAlpha_succ _ _ _ 1 le_rfl, naiveAlpha_one]
    norm_num [vecMatP_def, matCols, vecMatW, addv, smulv, hadamard, rowD,
      sumv, List.replicate]

/-- Claim C3: for a shape-consistent model with `n ≥ 1` in which the
probability mass reaches zero at some step, `foralg` fails with
`NumericalError` (and in particular does not return any `ok` value). -/
theorem foralg_zero_mass_error (n N : ℕ) (foo : List ℝ)
    (gamma allprobs : List (List ℝ)) (hn : 1 ≤ n)
    (hsh : shapeOkF n N foo gamma allprobs = true)
    (hz : ∃ t, 1 ≤ t ∧ t ≤ n ∧ sumv (naiveAlpha foo gamma allprobs t) = 0) :
    foralg n N foo gamma allprobs = .error .NumericalError := by
  obtain ⟨hfoo, hg, hgr, hp, hpr⟩ := (shapeOkF_iff n N foo gamma allprobs).mp hsh
  obtain ⟨t0, ht1, ht2, ht0⟩ := hz
  simp only [foralg]
  rw [if_pos hsh,
    foralgCore_spec n N foo gamma allprobs hfoo hg hgr hp hpr hn]
  rw [if_neg]
  intro hall
  exact (hall t0 ht1 ht2) ht0

/-- Witness for C3: an identity-transition model whose second emission
row is zero on the only occupied state. -/
theorem foralg_zero_mass_error_witness :
    foralg 2 2 [(1:ℝ), 0] [[1, 0], [0, 1]] [[1, 0], [0, 1]]
      = .error .NumericalError := by
  apply foralg_zero_mass_error 2 2 [(1:ℝ), 0] [[1, 0], [0, 1]]
    [[1, 0], [0, 1]] (by norm_num) rfl
  refine ⟨2, by norm_num, by norm_num, ?_⟩
  show sumv (naiveAlpha [(1:ℝ), 0] [[1, 0], [0, 1]]
      [[1, 0], [0, 1]] (1 + 1)) = 0
  rw [naiveAlpha_succ _ _ _ 1 le_rfl, naiveAlpha_one]
  norm_num [vecMatP_def, matCols, vecMatW, addv, smulv, hadamard, rowD,
    sumv, List.replicate]

/-- Counterexample for C5: with `n = 0` and a nonempty emission matrix
the shapes are inconsistent (`n` must equal the emission row count), so
the eager shape validation of the spec yields `ShapeError` rather than
the value `0` asserted by the claim for every emission matrix. -/
theorem foralg_n_zero_counterexample :
    foralg 0 1 [(1:ℝ)] [[1]] [[1]] ≠ .ok 0 := by
  intro hcontra
  have h : foralg 0 1 [(1:ℝ)] [[1]] [[1]] = .error .ShapeError := by
    simp [foralg, show shapeOkF 0 1 [(1:ℝ)] [[1]] [[1]] = false from rfl]
  rw [h] at hcontra
  exact Except.noConfusion hcontra

/-- Claim C5 (amended): for every input passing shape validation (hence
with an empty emission matrix), `foralg` with `n = 0` returns exactly
`0`. -/
theorem foralg_n_zero_ok (n N : ℕ) (foo : List ℝ)
    (gamma allprobs : List (List ℝ))
    (hsh : shapeOkF n N foo gamma allprobs = true) (hn : n = 0) :
    foralg n N foo gamma allprobs = .ok 0 := by
  subst hn
  simp only [foralg, foralgCore]
  rw [if_pos hsh]
  simp

/-- Witness for the amended C5. -/
theorem foralg_n_zero_ok_witness :
    foralg 0 1 [(1:ℝ)] [[1]] [] = .ok 0 :=
  foralg_n_zero_ok 0 1 [(1:ℝ)] [[1]] [] rfl rfl

/-- Counterexample for C6: the claim quantifies over every initial
distribution; for the initial distribution `[0]` the first mass sum is
zero, so `foralg` fails with `NumericalError` instead of returning
`ln (sum (foo ⊙ emission row 1))`. -/
theorem foralg_n_one_counterexample :
    foralg 1 1 [(0:ℝ)] [[1]] [[1]]
      ≠ .ok (Real.log (sumv (hadamard [(0:ℝ)] (rowD [[(1:ℝ)]] 0)))) := by
  intro hcontra
  have h : foralg 1 1 [(0:ℝ)] [[1]] [[1]] = .error .NumericalError := by
    simp only [foralg, foralgCore]
    rw [if_pos (show shapeOkF 1 1 [(0:ℝ)] [[1]] [[1]] = true from rfl),
      if_neg (by omega : ¬ (1:ℕ) = 0)]
    have e0 : nthE [[(1:ℝ)]] 0 = .ok [1] := rfl
    rw [e0, exbind_ok]
    have e1 : hadE [(0:ℝ)] [1] = .ok (hadamard [0] [1]) := rfl
    rw [e1, exbind_ok]
    rw [if_pos (by norm_num [hadamard, sumv] : sumv (hadamard [(0:ℝ)] [1]) = 0)]
  rw [h] at hcontra
  exact Except.noConfusion hcontra

/-- Claim C6 (amended): for every shape-consistent input with `n = 1`
whose first mass sum is nonzero, `foralg` returns
`ln (sum (foo ⊙ emission row 1))`; the conclusion does not mention the
transition matrix, so the transition matrix has no effect on the
result. -/
theorem foralg_n_one_ok (N : ℕ) (foo : List ℝ)
    (gamma allprobs : List (List ℝ))
    (hsh : shapeOkF 1 N foo gamma allprobs = true)
    (hnz : sumv (hadamard foo (rowD allprobs 0)) ≠ 0) :
    foralg 1 N foo gamma allprobs
      = .ok (Real.log (sumv (hadamard foo (rowD allprobs 0)))) := by
  obtain ⟨hfoo, hg, hgr, hp, hpr⟩ := (shapeOkF_iff 1 N foo gamma allprobs).mp hsh
  simp only [foralg]
  rw [if_pos hsh,
    foralgCore_spec 1 N foo gamma allprobs hfoo hg hgr hp hpr le_rfl]
  have hcond : ∀ u, 1 ≤ u → u ≤ 1 →
      sumv (naiveAlpha foo gamma allprobs u) ≠ 0 := by
    intro u h1 h2
    have hu : u = 1 := by omega
    rw [hu, naiveAlpha_one]
    exact hnz
  rw [if_pos hcond, naiveAlpha_one]

/-- Witness for the amended C6: the instance from the spec, with an
arbitrary (non-identity) transition matrix; the result is `ln (1/2)`. -/
theorem foralg_n_one_ok_witness :
    foralg 1 2 [(1:ℝ)/2, 1/2] [[4/10, 6/10], [7/10, 3/10]] [[2/10, 8/10]]
      = .ok (Real.log ((1:ℝ)/2)) := by
  have h := foralg_n_one_ok 2 [(1:ℝ)/2, 1/2] [[4/10, 6/10], [7/10, 3/10]]
    [[2/10, 8/10]] rfl (by norm_num [hadamard, rowD, sumv])
  rw [h]
  norm_num [hadamard, rowD, sumv]

/-- Claim C10: the recursion of `foralg` takes `n` and `N` as separate
arguments not derived from the matrices.  Under the precondition that
`n` and `N` agree with the matrix dimensions, every matrix and vector
access of the recursion is in bounds, so the out-of-bounds branch of
the total embedding is unreachable; and the guarantee does not extend
to mismatched inputs: with `n = 2` but a one-row emission matrix the
recursion reaches the out-of-bounds branch. -/
theorem foralgCore_inbounds :
    (∀ (n N : ℕ) (foo : List ℝ) (gamma allprobs : List (List ℝ)),
        shapeOkF n N foo gamma allprobs = true →
        foralgCore n N foo gamma allprobs ≠ .error .OutOfBounds)
    ∧ foralgCore 2 1 [(1:ℝ)] [[1]] [[1]] = .error .OutOfBounds := by
  constructor
  · intro n N foo gamma allprobs hsh
    obtain ⟨hfoo, hg, hgr, hp, hpr⟩ :=
      (shapeOkF_iff n N foo gamma allprobs).mp hsh
    by_cases hn : n = 0
    · subst hn
      simp only [foralgCore, if_true, eq_self_iff_true]
      intro h
      exact Except.noConfusion h
    · rw [foralgCore_spec n N foo gamma allprobs hfoo hg hgr hp hpr
        (by omega)]
      by_cases hC : ∀ u, 1 ≤ u → u ≤ n →
          sumv (naiveAlpha foo gamma allprobs u) ≠ 0
      · rw [if_pos hC]
        intro h
        exact Except.noConfusion h
      · rw [if_neg hC]
        intro h
        injection h with h2
        exact absurd h2 (by decide)
  · simp only [foralgCore]
    rw [if_neg (by omega : ¬ (2:ℕ) = 0)]
    have e0 : nthE [[(1:ℝ)]] 0 = .ok [1] := rfl
    rw [e0, exbind_ok]
    have e1 : hadE [(1:ℝ)] [1] = .ok (hadamard [1] [1]) := rfl
    rw [e1, exbind_ok]
    rw [if_neg (by norm_num [hadamard, sumv] :
      ¬ sumv (hadamard [(1:ℝ)] [1]) = 0)]
    show foralgGo [[(1:ℝ)]] [[1]] (0 + 1) 1 _ _ = .error .OutOfBounds
    simp only [foralgGo]
    rw [vecMatE_ok _ [[(1:ℝ)]] 1
      (by rw [length_smulv, length_hadamard]; rfl) rfl
      (by intro r hr; simp only [List.mem_singleton] at hr; rw [hr]; rfl),
      exbind_ok]
    have e4 : nthE [[(1:ℝ)]] 1 = .error .OutOfBounds := rfl
    rw [e4, exbind_error]

/-- Witness for C10: the in-bounds guarantee applied at a concrete
shape-consistent input. -/
theorem foralgCore_inbounds_witness :
    foralgCore 0 1 [(1:ℝ)] [[1]] [] ≠ .error .OutOfBounds :=
  foralgCore_inbounds.1 0 1 [(1:ℝ)] [[1]] [] rfl

/-- Modelled from the spec: shape validation of `dmvnrm_arma_mc`
(body missing from the visible source; spec sections 4.1 and 7): the
dimension `D` is the length of `mean`, must be at least 1, `sigma` is
`D` by `D`, and every observation row has width `D`. -/
def shapeOkD (x : List (List ℝ)) (mean : List ℝ)
    (sigma : List (List ℝ)) : Bool :=
  mean.length != 0 && sigma.length == mean.length &&
    sigma.all (fun r => r.length == mean.length) &&
    x.all (fun r => r.length == mean.length)

/-- The `D` by `D` matrix read off a list of rows (entries outside the
lists default to `0`; shape validation rules that out). -/
def toMatrix (m : List (List ℝ)) (D : ℕ) : Matrix (Fin D) (Fin D) ℝ :=
  Matrix.of fun i j => (m.getD i []).getD j 0

/-- The length-`D` vector read off a list. -/
def toVecF (v : List ℝ) (D : ℕ) : Fin D → ℝ :=
  fun i => v.getD i 0

/-- Modelled from the spec: the multivariate normal log-density of one
observation `y` under mean `mu` and covariance `S` (body of
`dmvnrm_arma_mc` missing from the visible source; spec section 4.1):
`-D/2 ln(2 pi) - 1/2 ln det S - 1/2 (y - mu)ᵀ S⁻¹ (y - mu)`. -/
noncomputable def mvnLogPdf (D : ℕ) (S : Matrix (Fin D) (Fin D) ℝ)
    (mu y : Fin D → ℝ) : ℝ :=
  -(D * Real.log (2 * Real.pi)) / 2 - Real.log S.det / 2
    - Matrix.dotProduct (fun i => y i - mu i)
        (S⁻¹.mulVec fun i => y i - mu i) / 2

open Classical in
/-- Modelled from the spec: `dmvnrm_arma_mc` (body missing from the
visible source; spec sections 4.1 and 7).  Shapes are validated eagerly
(`ShapeError` on mismatch), a covariance that is not positive definite
fails with `NumericalError`, and otherwise each observation row is
mapped to its log-density, exponentiated when `logd` is false.  The
`cores` argument only selects the worker count and has no effect on
the value. -/
noncomputable def dmvnrm_arma_mc (x : List (List ℝ)) (mean : List ℝ)
    (sigma : List (List ℝ)) (logd : Bool) (cores : ℕ) :
    Except Err (List ℝ) :=
  if shapeOkD x mean sigma then
    if (toMatrix sigma mean.length).PosDef then
      .ok (x.map fun r =>
        if logd then
          mvnLogPdf mean.length (toMatrix sigma mean.length)
            (toVecF mean mean.length) (toVecF r mean.length)
        else
          Real.exp (mvnLogPdf mean.length (toMatrix sigma mean.length)
            (toVecF mean mean.length) (toVecF r mean.length)))
    else .error .NumericalError
  else .error .ShapeError

lemma toMatrix_single (a : ℝ) (i j : Fin 1) : toMatrix [[a]] 1 i j = a := by
  rw [Subsingleton.elim i 0, Subsingleton.elim j 0]
  rfl

lemma toVecF_single (a : ℝ) (i : Fin 1) : toVecF [a] 1 i = a := by
  rw [Subsingleton.elim i 0]
  rfl

lemma posDef_single (s2 : ℝ) (hs2 : 0 < s2) : (toMatrix [[s2]] 1).PosDef := by
  have hsym : (toMatrix [[s2]] 1).conjTranspose = toMatrix [[s2]] 1 := by
    ext i j
    rw [Matrix.conjTranspose_apply, toMatrix_single, toMatrix_single]
    exact star_trivial _
  refine ⟨hsym, fun y hy => ?_⟩
  have hy0 : y 0 ≠ 0 := by
    intro h0
    apply hy
    funext i
    rw [Subsingleton.elim i 0]
    exact h0
  have hcomp : Matrix.dotProduct (star y) ((toMatrix [[s2]] 1).mulVec y)
      = s2 * (y 0 * y 0) := by
    simp [Matrix.dotProduct, Matrix.mulVec, Fin.sum_univ_one, toMatrix_single,
      star_trivial]
    ring
  rw [hcomp]
  exact mul_pos hs2 (mul_self_pos.mpr hy0)

lemma not_posDef_neg_single : ¬ (toMatrix [[(-1:ℝ)]] 1).PosDef := by
  rintro ⟨_, hpos⟩
  have h1 : (fun _ : Fin 1 => (1:ℝ)) ≠ 0 := by
    intro h
    have h0 := congrFun h 0
    norm_num at h0
  have h2 := hpos (fun _ => 1) h1
  have hcomp : Matrix.dotProduct (star (fun _ : Fin 1 => (1:ℝ)))
      ((toMatrix [[(-1:ℝ)]] 1).mulVec (fun _ => 1)) = -1 := by
    simp [Matrix.dotProduct, Matrix.mulVec, Fin.sum_univ_one, toMatrix_single,
      star_trivial]
  rw [hcomp] at h2
  norm_num at h2

lemma mvnLogPdf_single (s2 m a : ℝ) (hs2 : s2 ≠ 0) :
    mvnLogPdf 1 (toMatrix [[s2]] 1) (toVecF [m] 1) (toVecF [a] 1)
      = -Real.log (2 * Real.pi) / 2 - Real.log s2 / 2
          - (a - m) ^ 2 / (2 * s2) := by
  have hdet : (toMatrix [[s2]] 1).det = s2 := by
    rw [Matrix.det_fin_one]
    exact toMatrix_single s2 0 0
  have hinv : (toMatrix [[s2]] 1)⁻¹ = Matrix.of fun (_ _ : Fin 1) => s2⁻¹ := by
    rw [Matrix.inv_def, Matrix.adjugate_fin_one, hdet, Ring.inverse_eq_inv]
    ext i j
    rw [Subsingleton.elim i j]
    simp [Matrix.smul_apply, Matrix.one_apply]
  unfold mvnLogPdf
  rw [hdet, hinv]
  simp only [Matrix.dotProduct, Matrix.mulVec, Fin.sum_univ_one, toVecF_single,
    Matrix.of_apply, Nat.cast_one]
  field_simp
  ring

/-- Claim C2: for shape-consistent inputs with a positive-definite
covariance, `dmvnrm_arma_mc` in log space returns, for each observation
row, the closed-form multivariate normal log-density
`-D/2 ln(2 pi) - 1/2 ln det S - 1/2 (x - mu)ᵀ S⁻¹ (x - mu)`; and in
dimension `D = 1` this agrees with the closed-form scalar normal
log-density. -/
theorem dmvnrm_log_density :
    (∀ (x : List (List ℝ)) (mean : List ℝ) (sigma : List (List ℝ))
        (cores : ℕ),
        shapeOkD x mean sigma = true →
        (toMatrix sigma mean.length).PosDef →
        dmvnrm_arma_mc x mean sigma true cores
          = .ok (x.map fun r =>
              mvnLogPdf mean.length (toMatrix sigma mean.length)
                (toVecF mean mean.length) (toVecF r mean.length)))
    ∧ (∀ (xs : List ℝ) (m s2 : ℝ) (cores : ℕ), 0 < s2 →
        dmvnrm_arma_mc (xs.map fun a => [a]) [m] [[s2]] true cores
          = .ok (xs.map fun a =>
              -Real.log (2 * Real.pi) / 2 - Real.log s2 / 2
                - (a - m) ^ 2 / (2 * s2))) := by
  have hgen : ∀ (x : List (List ℝ)) (mean : List ℝ) (sigma : List (List ℝ))
      (cores : ℕ),
      shapeOkD x mean sigma = true →
      (toMatrix sigma mean.length).PosDef →
      dmvnrm_arma_mc x mean sigma true cores
        = .ok (x.map fun r =>
            mvnLogPdf mean.length (toMatrix sigma mean.length)
              (toVecF mean mean.length) (toVecF r mean.length)) := by
    intro x mean sigma cores hsh hpd
    simp only [dmvnrm_arma_mc]
    rw [if_pos hsh, if_pos hpd]
    simp
  refine ⟨hgen, ?_⟩
  intro xs m s2 cores hs2
  have hsh : shapeOkD (xs.map fun a => [a]) [m] [[s2]] = true := by
    simp [shapeOkD, List.all_eq_true]
  have hpd : (toMatrix [[s2]] [m].length).PosDef := posDef_single s2 hs2
  rw [hgen (xs.map fun a => [a]) [m] [[s2]] cores hsh hpd, List.map_map]
  have hfun : ((fun r => mvnLogPdf [m].length (toMatrix [[s2]] [m].length)
        (toVecF [m] [m].length) (toVecF r [m].length)) ∘ fun a => [a])
      = fun a => -Real.log (2 * Real.pi) / 2 - Real.log s2 / 2
          - (a - m) ^ 2 / (2 * s2) := by
    funext a
    exact mvnLogPdf_single s2 m a (ne_of_gt hs2)
  rw [hfun]

/-- Witness for C2: the one-dimensional case at a single standard
observation. -/
theorem dmvnrm_log_density_witness :
    dmvnrm_arma_mc (([0] : List ℝ).map fun a => [a]) [0] [[1]] true 1
      = .ok (([0] : List ℝ).map fun a =>
          -Real.log (2 * Real.pi) / 2 - Real.log 1 / 2
            - (a - 0) ^ 2 / (2 * 1)) :=
  dmvnrm_log_density.2 [0] 0 1 1 one_pos

/-- Claim C4: any dimension mismatch makes the call fail with
`ShapeError`: the validation runs at entry, so the recursion and the
density evaluation never start and no other result is produced. -/
theorem shape_mismatch_shape_error :
    (∀ (n N : ℕ) (foo : List ℝ) (gamma allprobs : List (List ℝ)),
        shapeOkF n N foo gamma allprobs = false →
        foralg n N foo gamma allprobs = .error .ShapeError)
    ∧ (∀ (x : List (List ℝ)) (mean : List ℝ) (sigma : List (List ℝ))
        (logd : Bool) (cores : ℕ),
        shapeOkD x mean sigma = false →
        dmvnrm_arma_mc x mean sigma logd cores = .error .ShapeError) := by
  constructor
  · intro n N foo gamma allprobs h
    simp [foralg, h]
  · intro x mean sigma logd cores h
    simp [dmvnrm_arma_mc, h]

/-- Witness for C4: a length-1 initial distribution declared as `N = 2`,
and an observation row of width 2 against a one-dimensional mean. -/
theorem shape_mismatch_shape_error_witness :
    foralg 1 2 [(1:ℝ)] [[1]] [[1]] = .error .ShapeError
    ∧ dmvnrm_arma_mc [[(1:ℝ), 2]] [0] [[1]] true 1 = .error .ShapeError :=
  ⟨shape_mismatch_shape_error.1 1 2 [(1:ℝ)] [[1]] [[1]] rfl,
    shape_mismatch_shape_error.2 [[(1:ℝ), 2]] [(0:ℝ)] [[1]] true 1 rfl⟩

/-- Claim C7: on every input, the plain-density result of
`dmvnrm_arma_mc` is the elementwise exponential of its log-space
result (and the two calls fail identically). -/
theorem dmvnrm_exp_of_log (x : List (List ℝ)) (mean : List ℝ)
    (sigma : List (List ℝ)) (cores : ℕ) :
    dmvnrm_arma_mc x mean sigma false cores
      = Except.map (List.map Real.exp)
          (dmvnrm_arma_mc x mean sigma true cores) := by
  by_cases hsh : shapeOkD x mean sigma = true
  · by_cases hpd : (toMatrix sigma mean.length).PosDef
    · simp only [dmvnrm_arma_mc]
      rw [if_pos hsh, if_pos hsh, if_pos hpd, if_pos hpd]
      simp [Except.map, List.map_map, Function.comp]
    · simp only [dmvnrm_arma_mc]
      rw [if_pos hsh, if_pos hsh, if_neg hpd, if_neg hpd]
      rfl
  · simp only [dmvnrm_arma_mc]
    rw [if_neg hsh, if_neg hsh]
    rfl

/-- Claim C8: for a shape-consistent call whose covariance matrix is
not positive definite, `dmvnrm_arma_mc` fails with `NumericalError`. -/
theorem dmvnrm_not_posdef (x : List (List ℝ)) (mean : List ℝ)
    (sigma : List (List ℝ)) (logd : Bool) (cores : ℕ)
    (hsh : shapeOkD x mean sigma = true)
    (hpd : ¬ (toMatrix sigma mean.length).PosDef) :
    dmvnrm_arma_mc x mean sigma logd cores = .error .NumericalError := by
  simp only [dmvnrm_arma_mc]
  rw [if_pos hsh, if_neg hpd]

/-- Witness for C8: the one-by-one covariance `[[-1]]`, which has the
negative eigenvalue `-1`. -/
theorem dmvnrm_not_posdef_witness :
    dmvnrm_arma_mc [] [(0:ℝ)] [[-1]] true 1 = .error .NumericalError :=
  dmvnrm_not_posdef [] [(0:ℝ)] [[-1]] true 1 rfl not_posDef_neg_single

/-- Claim C9: the result of `dmvnrm_arma_mc` does not depend on the
requested worker count: any two `cores` arguments give the same
output sequence. -/
theorem dmvnrm_cores_invariant (x : List (List ℝ)) (mean : List ℝ)
    (sigma : List (List ℝ)) (logd : Bool) (c1 c2 : ℕ) :
    dmvnrm_arma_mc x mean sigma logd c1
      = dmvnrm_arma_mc x mean sigma logd c2 := rfl
